import Mathlib

/-!
Verification development for the guest physical memory abstraction of the
`vm-memory-test` repository.

The repository ships the benchmark driver `benches/main.rs` (embedded below as
the `Bench` namespace) and the module list `src/crosvm_mem/mod.rs`; the bodies
of the memory-model modules it declares (`guest_address.rs`, `guest_memory.rs`,
`mmap.rs`, ...) are not present in the source tree, so those components are
modelled from the specification (`spec.md`), as marked on each definition.

Machine integers are modelled as `Nat` with explicit `% 2^64` where u64
wrap-around matters.  Byte content of the disjoint regions is modelled as a
single function from guest physical address to byte value: since regions are
disjoint and every access is routed to exactly one region's mapping, this is an
exact representation of the per-region mappings glued along their bases.
-/

namespace VmMem

/-- 2^64, the number of values of a Rust `u64`. -/
def U64_LIMIT : Nat := 2 ^ 64

/-! ### Address type

Modelled from the spec: "GuestAddress: a 64-bit unsigned quantity with a total
order and checked add/subtract (overflow must be signaled, never silently
wrapped)."  A guest address is a `Nat` below `U64_LIMIT`; the checked
operations return `none` exactly when the mathematical result is not
representable as a u64. -/

/-- Modelled from the spec: `GuestAddress::checked_add` — returns the
mathematical sum when it is representable in 64 bits, `none` otherwise. -/
def checked_add (a off : Nat) : Option Nat :=
  if a + off < U64_LIMIT then some (a + off) else none

/-- Modelled from the spec: `GuestAddress::checked_sub` — returns the
mathematical difference when it is nonnegative (hence representable as a u64
given `a < 2^64`), `none` otherwise. -/
def checked_sub (a off : Nat) : Option Nat :=
  if off ≤ a then some (a - off) else none

/-! ### Error taxonomy

Modelled from the spec, section 7: ConstructionError, OutOfBounds, ShortIo,
OsError. -/

inductive MemError where
  | outOfBounds
  | shortIo
  | constructionError
  | osError
deriving DecidableEq, Repr

/-! ### Region metadata and the region set -/

/-- A region's structural metadata: `(base, size)` in guest physical address
space, covering `[base, base + size)`. -/
structure MemRegion where
  base : Nat
  size : Nat
deriving DecidableEq, Repr

/-- Modelled from the spec: the region set — an ascending-base, disjoint list
of regions plus the byte content behind them, keyed by guest physical
address. -/
structure GuestMem where
  regions : List MemRegion
  bytes : Nat → Nat

/-- Region `r` contains address `a`: `r.base ≤ a < r.base + r.size`. -/
def containsAddr (r : MemRegion) (a : Nat) : Bool :=
  decide (r.base ≤ a) && decide (a < r.base + r.size)

/-- Modelled from the spec: the containing-region lookup — an ordered,
non-mutating search over the normalized region list for the region that
contains `a`. -/
def findRegion (m : GuestMem) (a : Nat) : Option MemRegion :=
  m.regions.find? (fun r => containsAddr r a)

/-- Modelled from the spec: address resolution, used by every public access
operation.  Locates the region containing `a`; fails with OutOfBounds if no
region contains `a` or the containing region cannot accommodate the full
`len`. -/
def tryAccess (m : GuestMem) (a len : Nat) : Except MemError MemRegion :=
  match findRegion m a with
  | none => .error .outOfBounds
  | some r => if a + len ≤ r.base + r.size then .ok r else .error .outOfBounds

/-- Pointwise update of the byte content: store `data` at addresses
`[a, a + data.length)`, leaving every other address unchanged. -/
def storeRange (f : Nat → Nat) (a : Nat) (data : List Nat) : Nat → Nat :=
  fun x => if a ≤ x ∧ x < a + data.length then data.getD (x - a) 0 else f x

/-- Modelled from the spec: exact-length byte-range read (`read_slice` routed
through resolution).  Returns the `len` bytes starting at `a`, or
OutOfBounds. -/
def readBytes (m : GuestMem) (a len : Nat) : Except MemError (List Nat) :=
  (tryAccess m a len).map fun _ => (List.range len).map fun i => m.bytes (a + i)

/-- Modelled from the spec: exact-length byte-range write (`write_slice`
routed through resolution). -/
def writeBytes (m : GuestMem) (a : Nat) (data : List Nat) :
    Except MemError GuestMem :=
  (tryAccess m a data.length).map fun _ =>
    { m with bytes := storeRange m.bytes a data }

/-! ### Construction -/

/-- Base-order comparison used to normalize the input list. -/
def leBase (p q : Nat × Nat) : Prop := p.1 ≤ q.1

instance : DecidableRel leBase := fun p q => Nat.decLe p.1 q.1

instance : IsTotal (Nat × Nat) leBase := ⟨fun p q => Nat.le_total p.1 q.1⟩

instance : IsTrans (Nat × Nat) leBase := ⟨fun _ _ _ h h' => Nat.le_trans h h'⟩

/-- Normalize a list of `(base, size)` pairs to ascending base order. -/
def sortByBase (l : List (Nat × Nat)) : List (Nat × Nat) :=
  List.insertionSort leBase l

/-- Check that each consecutive pair of the (sorted) list is disjoint:
the earlier range ends no later than the next one begins. -/
def chainOk : List (Nat × Nat) → Bool
  | [] => true
  | [_] => true
  | p :: q :: rest => decide (p.1 + p.2 ≤ q.1) && chainOk (q :: rest)

/-- Two `(base, size)` ranges are disjoint: one ends no later than the other
begins. -/
def rangesDisjoint (p q : Nat × Nat) : Prop := p.1 + p.2 ≤ q.1 ∨ q.1 + q.2 ≤ p.1

/-- Ordered disjointness on `(base, size)` ranges: the first ends no later
than the second begins. -/
def rangeBelow (p q : Nat × Nat) : Prop := p.1 + p.2 ≤ q.1

instance : IsTrans (Nat × Nat) rangeBelow :=
  ⟨fun _ q _ h h' => by unfold rangeBelow at *; omega⟩

instance : DecidableRel rangeBelow :=
  fun p q => Nat.decLe (p.1 + p.2) q.1

instance : DecidableRel rangesDisjoint :=
  fun p q => inferInstanceAs (Decidable (p.1 + p.2 ≤ q.1 ∨ q.1 + q.2 ≤ p.1))

/-- Modelled from the spec: region-set construction (`from_ranges`).  Takes an
unordered list of `(base, size)` pairs, normalizes to ascending base order,
rejects any zero-length entry and any overlapping (including duplicate) pair
of ranges; the benchmark in `benches/main.rs` constructs eight adjacent
(touching) regions successfully, and the spec's boundary-rejection property
presupposes two touching regions, so touching ranges are accepted.  On
success the byte content is all-zero. -/
def fromRanges (l : List (Nat × Nat)) : Except MemError GuestMem :=
  let s := sortByBase l
  if s.all (fun p => decide (p.2 ≠ 0)) && chainOk s then
    .ok ⟨s.map fun p => ⟨p.1, p.2⟩, fun _ => 0⟩
  else
    .error .constructionError

/-- The disjointness order on region metadata: the first region ends no later
than the second begins. -/
def regionBelow (p q : MemRegion) : Prop := p.base + p.size ≤ q.base

instance : IsTrans MemRegion regionBelow :=
  ⟨fun _ q _ h h' => Nat.le_trans h (Nat.le_trans (Nat.le_add_right q.base q.size) h')⟩

instance : DecidableRel regionBelow :=
  fun p q => Nat.decLe (p.base + p.size) q.base

/-- Well-formed region set: regions in ascending disjoint order (each region
ends no later than the next begins) and every region nonempty.  Construction
establishes this. -/
def wf (m : GuestMem) : Prop :=
  List.Chain' regionBelow m.regions ∧ ∀ r ∈ m.regions, 0 < r.size

/-! ### Typed object access (plain-data capability)

Modelled from the spec: `read_obj` / `write_obj` move the raw little-endian
byte representation of a fixed-layout type between the mapping and a value,
with length `sizeof(T)`.  The two payload shapes of the benchmark are the
8-byte two-u32-field `SmallDummy` and the 96-byte twelve-u64-element
`BigDummy` (benches/main.rs lines 45-63). -/

/-- Little-endian byte encoding of `n` on `k` bytes. -/
def natToLe : Nat → Nat → List Nat
  | 0, _ => []
  | k + 1, n => n % 256 :: natToLe k (n / 256)

/-- Little-endian byte decoding. -/
def leToNat : List Nat → Nat
  | [] => 0
  | b :: bs => b + 256 * leToNat bs

/-- Decode `n` consecutive `k`-byte little-endian chunks. -/
def leChunks (k : Nat) : Nat → List Nat → List Nat
  | 0, _ => []
  | n + 1, l => leToNat (l.take k) :: leChunks k n (l.drop k)

/-- The benchmark's `SmallDummy` type: `{ a: u32, b: u32 }`, 8 bytes
(benches/main.rs lines 45-53). -/
structure SmallDummy where
  a : Nat
  b : Nat
deriving DecidableEq, Repr

/-- Raw byte representation of a `SmallDummy`: the two u32 fields
little-endian, in declaration order (repr(C)). -/
def SmallDummy.toBytes (v : SmallDummy) : List Nat :=
  natToLe 4 v.a ++ natToLe 4 v.b

/-- Reinterpret 8 raw bytes as a `SmallDummy`. -/
def SmallDummy.fromBytes (l : List Nat) : SmallDummy :=
  ⟨leToNat (l.take 4), leToNat ((l.drop 4).take 4)⟩

/-- The benchmark's `BigDummy` type: `{ elements: [u64; 12] }`, 96 bytes
(benches/main.rs lines 55-63). -/
structure BigDummy where
  elements : List Nat
deriving DecidableEq, Repr

/-- Raw byte representation of a `BigDummy`: the twelve u64 elements
little-endian, in order. -/
def BigDummy.toBytes (v : BigDummy) : List Nat :=
  (v.elements.map (natToLe 8)).flatten

/-- Reinterpret 96 raw bytes as a `BigDummy`. -/
def BigDummy.fromBytes (l : List Nat) : BigDummy :=
  ⟨leChunks 8 12 l⟩

/-- Modelled from the spec: `write_obj` for the 8-byte type — raw byte
reinterpretation routed through resolution. -/
def writeObjSmall (m : GuestMem) (v : SmallDummy) (a : Nat) :
    Except MemError GuestMem :=
  writeBytes m a v.toBytes

/-- Modelled from the spec: `read_obj` for the 8-byte type. -/
def readObjSmall (m : GuestMem) (a : Nat) : Except MemError SmallDummy :=
  (readBytes m a 8).map SmallDummy.fromBytes

/-- Modelled from the spec: `write_obj` for the 96-byte type. -/
def writeObjBig (m : GuestMem) (v : BigDummy) (a : Nat) :
    Except MemError GuestMem :=
  writeBytes m a v.toBytes

/-- Modelled from the spec: `read_obj` for the 96-byte type. -/
def readObjBig (m : GuestMem) (a : Nat) : Except MemError BigDummy :=
  (readBytes m a 96).map BigDummy.fromBytes

/-! ### Streaming operations

Modelled from the spec: bulk transfer between the region set and an external
sequential byte stream.  An input stream is modelled by the list of bytes it
can still supply; an output stream by the number of bytes it can still
accept. -/

/-- Modelled from the spec: `read_exact_from` — fill `[a, a + len)` from the
stream; fails atomically with ShortIo if the stream cannot supply the full
`len` bytes, and with OutOfBounds if resolution fails. -/
def read_exact_from (m : GuestMem) (a : Nat) (stream : List Nat) (len : Nat) :
    Except MemError GuestMem :=
  match tryAccess m a len with
  | .error e => .error e
  | .ok _ =>
      if stream.length < len then .error .shortIo
      else .ok { m with bytes := storeRange m.bytes a (stream.take len) }

/-- Modelled from the spec: `write_all_to` — deliver the `len` bytes at
`[a, a + len)` to the stream; fails atomically with ShortIo if the stream
cannot accept the full `len` bytes (its remaining capacity is `cap`), and
with OutOfBounds if resolution fails.  On success returns exactly the bytes
delivered. -/
def write_all_to (m : GuestMem) (a : Nat) (cap : Nat) (len : Nat) :
    Except MemError (List Nat) :=
  match tryAccess m a len with
  | .error e => .error e
  | .ok _ =>
      if cap < len then .error .shortIo
      else .ok ((List.range len).map fun i => m.bytes (a + i))

/-! ### Construction with mapping side effects

Modelled from the spec: during construction each region's backing mapping is
created by a host syscall that may fail; on any failure every mapping already
created in the same construction attempt is unmapped before the error
propagates.  The mapping/unmapping calls are recorded as an event trace; a
mapping is "live" if it was mapped and not subsequently unmapped. -/

inductive MapEvent where
  | mapped (i : Nat)
  | unmapped (i : Nat)
deriving DecidableEq, Repr

/-- One mapping/unmapping event applied to the set of live mappings. -/
def stepLive (live : List Nat) : MapEvent → List Nat
  | .mapped i => live ++ [i]
  | .unmapped i => live.erase i

/-- The live mappings after an event trace. -/
def liveAfter (evs : List MapEvent) : List Nat :=
  evs.foldl stepLive []

/-- Modelled from the spec: the mapping loop of construction.  Maps the
regions of the (validated, sorted) list in order, numbering them from `i`;
`oracle j` tells whether the host mapping syscall for region number `j`
fails.  On a syscall failure, every mapping already created (numbers
`i - 1, ..., 0` counted from the start of the attempt) is unmapped, in
reverse creation order, before the error is returned. -/
def mapLoop (oracle : Nat → Bool) :
    List (Nat × Nat) → Nat → List MapEvent → Except MemError Unit × List MapEvent
  | [], _, evs => (.ok (), evs)
  | _ :: rest, i, evs =>
      if oracle i then
        (.error .osError, evs ++ (List.range i).reverse.map .unmapped)
      else
        mapLoop oracle rest (i + 1) (evs ++ [.mapped i])

/-- Modelled from the spec: full region-set construction with mapping side
effects.  Validates (zero-length, overlap) first, then maps every region;
returns the constructed region set, or an error, together with the trace of
mapping/unmapping calls performed. -/
def buildRegions (oracle : Nat → Bool) (l : List (Nat × Nat)) :
    Except MemError GuestMem × List MapEvent :=
  let s := sortByBase l
  if s.all (fun p => decide (p.2 ≠ 0)) && chainOk s then
    match mapLoop oracle s 0 [] with
    | (.ok _, evs) => (.ok ⟨s.map fun p => ⟨p.1, p.2⟩, fun _ => 0⟩, evs)
    | (.error e, evs) => (.error e, evs)
  else
    (.error .constructionError, [])

/-! ### Concurrent accesses

Modelled from the spec: a byte-level write access performed from one thread
is the sequence of its single-byte volatile stores; two concurrent accesses
execute as an arbitrary interleaving of their stores. -/

/-- A write access: destination start address and the bytes to store. -/
structure WriteAccess where
  start : Nat
  data : List Nat

/-- The single-byte stores an access performs, in order: `(address, byte)`. -/
def stepsOf (w : WriteAccess) : List (Nat × Nat) :=
  (List.range w.data.length).map fun i => (w.start + i, w.data.getD i 0)

/-- Apply a sequence of single-byte stores to the byte content. -/
def applySteps (bytes : Nat → Nat) : List (Nat × Nat) → Nat → Nat
  | [], x => bytes x
  | (addr, b) :: rest, x => applySteps (fun y => if y = addr then b else bytes y) rest x

/-- Address `x` lies in the byte range of access `w`. -/
def inRange (w : WriteAccess) (x : Nat) : Prop :=
  w.start ≤ x ∧ x < w.start + w.data.length

instance (w : WriteAccess) (x : Nat) : Decidable (inRange w x) :=
  inferInstanceAs (Decidable (w.start ≤ x ∧ x < w.start + w.data.length))

/-- An arbitrary interleaving of two sequences preserving each one's order. -/
inductive Interleaving : List (Nat × Nat) → List (Nat × Nat) → List (Nat × Nat) → Prop
  | nil : Interleaving [] [] []
  | left {x xs ys zs} : Interleaving xs ys zs → Interleaving (x :: xs) ys (x :: zs)
  | right {y xs ys zs} : Interleaving xs ys zs → Interleaving xs (y :: ys) (y :: zs)

/-! ### Benchmark driver (from `src/benches/main.rs`) -/

namespace Bench

/-- Benchmark constant `REGION_SIZE = 0x8000_0000` (benches/main.rs line 41). -/
def REGION_SIZE : Nat := 0x80000000

/-- Benchmark constant `REGIONS_COUNT = 8` (benches/main.rs line 42). -/
def REGIONS_COUNT : Nat := 8

/-- Benchmark constant `ACCESS_SIZE = 0x200` (benches/main.rs line 43). -/
def ACCESS_SIZE : Nat := 0x200

/-- The benchmark's `AccessKind` enum (benches/main.rs lines 74-80): the parameter of
`InRegion` is the 0-based index of the region where the access happens; the
parameter of `CrossRegion` is the index of the second region (where the
access ends). -/
inductive AccessKind where
  | inRegion (idx : Nat)
  | crossRegion (idx : Nat)

/-- The benchmark's `AccessKind::is_cross_region` (benches/main.rs lines 85-90). -/
def AccessKind.is_cross_region : AccessKind → Bool
  | .inRegion _ => false
  | .crossRegion _ => true

/-- The benchmark's `AccessKind::make_offset` (benches/main.rs lines 92-97), with u64
wrap-around semantics for the multiplication and subtraction:
`InRegion(idx) => REGION_SIZE * idx`,
`CrossRegion(idx) => REGION_SIZE * idx - access_size / 2`. -/
def AccessKind.make_offset : AccessKind → Nat → Nat
  | .inRegion idx, _ => REGION_SIZE * idx % U64_LIMIT
  | .crossRegion idx, access_size =>
      (REGION_SIZE * idx % U64_LIMIT + (U64_LIMIT - access_size / 2 % U64_LIMIT))
        % U64_LIMIT

/-- The benchmark's region list (benches/main.rs lines 101-104): eight
adjacent regions of `REGION_SIZE` bytes each. -/
def benchRanges : List (Nat × Nat) :=
  (List.range REGIONS_COUNT).map fun i => (i * REGION_SIZE, REGION_SIZE)

/-- The region set the benchmark constructs from `benchRanges`. -/
def benchMem : GuestMem :=
  ⟨(List.range REGIONS_COUNT).map fun i => ⟨i * REGION_SIZE, REGION_SIZE⟩, fun _ => 0⟩

end Bench

/-- The two-region layout of the spec's boundary-rejection property:
regions covering `[0, 0x8000_0000)` and `[0x8000_0000, 0x1_0000_0000)`. -/
def twoRegionMem : GuestMem :=
  ⟨[⟨0, 0x80000000⟩, ⟨0x80000000, 0x80000000⟩], fun _ => 0⟩

/-! ## Resolution lemmas -/

theorem wf_pairwise {m : GuestMem} (h : wf m) : m.regions.Pairwise regionBelow :=
  List.chain'_iff_pairwise.mp h.1

theorem contains_unique {m : GuestMem} (hwf : wf m) {a : Nat} {r r' : MemRegion}
    (hr : r ∈ m.regions) (hr' : r' ∈ m.regions)
    (h1 : containsAddr r a = true) (h2 : containsAddr r' a = true) : r = r' := by
  by_contra hne
  have hp : m.regions.Pairwise (fun p q => regionBelow p q ∨ regionBelow q p) :=
    (wf_pairwise hwf).imp Or.inl
  have hsym : Symmetric (fun p q : MemRegion => regionBelow p q ∨ regionBelow q p) :=
    fun _ _ h => h.symm
  have hor := List.Pairwise.forall hsym hp hr hr' hne
  simp only [containsAddr, Bool.and_eq_true, decide_eq_true_eq] at h1 h2
  rcases hor with h | h <;> (unfold regionBelow at h; omega)

theorem covers_contains {r : MemRegion} {a len : Nat} (hlen : 1 ≤ len)
    (hb : r.base ≤ a) (he : a + len ≤ r.base + r.size) : containsAddr r a = true := by
  simp only [containsAddr, Bool.and_eq_true, decide_eq_true_eq]
  omega

theorem tryAccess_ok_of_covers {m : GuestMem} (hwf : wf m) {a len : Nat}
    (hlen : 1 ≤ len) {r : MemRegion} (hr : r ∈ m.regions)
    (hb : r.base ≤ a) (he : a + len ≤ r.base + r.size) :
    tryAccess m a len = .ok r := by
  have hcont := covers_contains hlen hb he
  cases hf : findRegion m a with
  | none =>
      unfold findRegion at hf
      rw [List.find?_eq_none] at hf
      exact absurd hcont (by simpa using hf r hr)
  | some r0 =>
      have hmem := List.mem_of_find?_eq_some hf
      have hc0 := List.find?_some hf
      have heq : r0 = r := contains_unique hwf hmem hr hc0 hcont
      subst heq
      simp only [tryAccess, hf]
      rw [if_pos he]

theorem tryAccess_error_of_not_covers {m : GuestMem} {a len : Nat}
    (h : ∀ r ∈ m.regions, ¬(r.base ≤ a ∧ a + len ≤ r.base + r.size)) :
    tryAccess m a len = .error .outOfBounds := by
  cases hf : findRegion m a with
  | none => simp only [tryAccess, hf]
  | some r0 =>
      have hmem := List.mem_of_find?_eq_some hf
      have hc0 := List.find?_some hf
      simp only [containsAddr, Bool.and_eq_true, decide_eq_true_eq] at hc0
      simp only [tryAccess, hf]
      rw [if_neg]
      intro hcontra
      exact h r0 hmem ⟨hc0.1, hcontra⟩

theorem tryAccess_ok_inv {m : GuestMem} {a len : Nat} {r : MemRegion}
    (h : tryAccess m a len = .ok r) :
    r ∈ m.regions ∧ r.base ≤ a ∧ a < r.base + r.size ∧ a + len ≤ r.base + r.size := by
  unfold tryAccess at h
  cases hf : findRegion m a with
  | none => rw [hf] at h; exact absurd h (by simp)
  | some r0 =>
      rw [hf] at h
      simp only at h
      by_cases hb : a + len ≤ r0.base + r0.size
      · rw [if_pos hb] at h
        injection h with h
        subst h
        have hmem := List.mem_of_find?_eq_some hf
        have hc := List.find?_some hf
        simp only [containsAddr, Bool.and_eq_true, decide_eq_true_eq] at hc
        exact ⟨hmem, hc.1, hc.2, hb⟩
      · rw [if_neg hb] at h; exact absurd h (by simp)

theorem tryAccess_error_inv {m : GuestMem} {a len : Nat} {e : MemError}
    (h : tryAccess m a len = .error e) : e = .outOfBounds := by
  unfold tryAccess at h
  cases hf : findRegion m a with
  | none =>
      rw [hf] at h
      simp only [Except.error.injEq] at h
      exact h.symm
  | some r0 =>
      rw [hf] at h
      simp only at h
      by_cases hb : a + len ≤ r0.base + r0.size
      · rw [if_pos hb] at h; exact absurd h (by simp)
      · rw [if_neg hb] at h
        simp only [Except.error.injEq] at h
        exact h.symm

theorem tryAccess_regions_eq {m m' : GuestMem} (h : m.regions = m'.regions)
    (a len : Nat) : tryAccess m a len = tryAccess m' a len := by
  unfold tryAccess findRegion
  rw [h]

/-! ## Byte store lemmas -/

theorem getD_range_map (d : Nat) : ∀ l : List Nat,
    (List.range l.length).map (fun i => l.getD i d) = l
  | [] => rfl
  | x :: xs => by
    rw [List.length_cons, List.range_succ_eq_map, List.map_cons, List.map_map]
    have h2 : ((List.range xs.length).map ((fun i => (x :: xs).getD i d) ∘ Nat.succ))
        = (List.range xs.length).map fun i => xs.getD i d := by
      apply List.map_congr_left
      intro i _
      simp [List.getD_cons_succ, Function.comp]
    rw [h2, getD_range_map d xs]
    simp [List.getD_cons_zero]

theorem storeRange_read (f : Nat → Nat) (a : Nat) (data : List Nat) :
    (List.range data.length).map (fun i => storeRange f a data (a + i)) = data := by
  have h : ∀ i ∈ List.range data.length,
      storeRange f a data (a + i) = data.getD i 0 := by
    intro i hi
    rw [List.mem_range] at hi
    unfold storeRange
    rw [if_pos ⟨Nat.le_add_right a i, by omega⟩]
    congr 1
    omega
  rw [List.map_congr_left h]
  exact getD_range_map 0 data

theorem storeRange_outside (f : Nat → Nat) (a : Nat) (data : List Nat) (x : Nat)
    (h : ¬(a ≤ x ∧ x < a + data.length)) : storeRange f a data x = f x :=
  if_neg h

theorem writeBytes_ok_elim {m m' : GuestMem} {a : Nat} {data : List Nat}
    (h : writeBytes m a data = .ok m') :
    (∃ r, tryAccess m a data.length = .ok r) ∧
      m' = { m with bytes := storeRange m.bytes a data } := by
  unfold writeBytes at h
  cases ht : tryAccess m a data.length with
  | error e => rw [ht] at h; exact absurd h (by simp [Except.map])
  | ok r =>
      rw [ht] at h
      simp only [Except.map, Except.ok.injEq] at h
      exact ⟨⟨r, rfl⟩, h.symm⟩

/-- Read-after-write at the same address and length returns exactly the bytes
written, leaves the region list unchanged, and leaves every byte outside the
written range unchanged. -/
theorem readBytes_writeBytes {m m' : GuestMem} {a : Nat} {data : List Nat}
    (h : writeBytes m a data = .ok m') :
    readBytes m' a data.length = .ok data ∧ m'.regions = m.regions ∧
      ∀ x, ¬(a ≤ x ∧ x < a + data.length) → m'.bytes x = m.bytes x := by
  obtain ⟨⟨r, hr⟩, hm'⟩ := writeBytes_ok_elim h
  subst hm'
  refine ⟨?_, rfl, fun x hx => storeRange_outside _ _ _ _ hx⟩
  have hr' : tryAccess { m with bytes := storeRange m.bytes a data } a data.length
      = .ok r := by
    rw [tryAccess_regions_eq
      (show ({ m with bytes := storeRange m.bytes a data } : GuestMem).regions
        = m.regions from rfl)]
    exact hr
  unfold readBytes
  rw [hr']
  simp only [Except.map, Except.ok.injEq]
  exact storeRange_read m.bytes a data

/-! ## Construction lemmas -/

theorem sortByBase_perm (l : List (Nat × Nat)) : (sortByBase l).Perm l :=
  List.perm_insertionSort leBase l

theorem sortByBase_sorted (l : List (Nat × Nat)) :
    List.Sorted leBase (sortByBase l) :=
  List.sorted_insertionSort leBase l

theorem chainOk_iff : ∀ l : List (Nat × Nat),
    chainOk l = true ↔ List.Chain' rangeBelow l
  | [] => by simp [chainOk]
  | [p] => by simp [chainOk]
  | p :: q :: rest => by
    rw [chainOk, List.chain'_cons, Bool.and_eq_true, decide_eq_true_eq,
      chainOk_iff (q :: rest)]
    exact Iff.rfl

theorem rangesDisjoint_symm : Symmetric rangesDisjoint :=
  fun _ _ h => h.symm

/-- The construction validator accepts exactly the lists with no zero-length
entry and pairwise disjoint ranges. -/
theorem validator_iff (l : List (Nat × Nat)) :
    (((sortByBase l).all fun p => decide (p.2 ≠ 0)) && chainOk (sortByBase l))
        = true ↔
      (∀ p ∈ l, p.2 ≠ 0) ∧ l.Pairwise rangesDisjoint := by
  rw [Bool.and_eq_true, List.all_eq_true, chainOk_iff]
  constructor
  · rintro ⟨hnz, hchain⟩
    constructor
    · intro p hp
      have := hnz p ((sortByBase_perm l).mem_iff.mpr hp)
      simpa using this
    · have hpw : (sortByBase l).Pairwise rangeBelow :=
        List.chain'_iff_pairwise.mp hchain
      have hd : (sortByBase l).Pairwise rangesDisjoint := hpw.imp Or.inl
      exact (((sortByBase_perm l).pairwise_iff
        fun h => rangesDisjoint_symm h).mp hd)
  · rintro ⟨hnz, hpw⟩
    constructor
    · intro p hp
      have := hnz p ((sortByBase_perm l).mem_iff.mp hp)
      simpa using this
    · have hds : (sortByBase l).Pairwise rangesDisjoint :=
        ((sortByBase_perm l).pairwise_iff fun h => rangesDisjoint_symm h).mpr hpw
      have hsorted : (sortByBase l).Pairwise leBase := sortByBase_sorted l
      have hand := hds.and hsorted
      have hbelow : (sortByBase l).Pairwise rangeBelow := by
        apply hand.imp_of_mem
        intro p q hp hq hpq
        have hqnz : q.2 ≠ 0 := hnz q ((sortByBase_perm l).mem_iff.mp hq)
        have hd : p.1 + p.2 ≤ q.1 ∨ q.1 + q.2 ≤ p.1 := hpq.1
        have hle : p.1 ≤ q.1 := hpq.2
        show p.1 + p.2 ≤ q.1
        omega
      exact hbelow.chain'

theorem fromRanges_ok_inv {l : List (Nat × Nat)} {m : GuestMem}
    (h : fromRanges l = .ok m) :
    m = ⟨(sortByBase l).map fun p => ⟨p.1, p.2⟩, fun _ => 0⟩ ∧
      (((sortByBase l).all fun p => decide (p.2 ≠ 0)) && chainOk (sortByBase l))
        = true := by
  unfold fromRanges at h
  by_cases hc :
      (((sortByBase l).all fun p => decide (p.2 ≠ 0)) && chainOk (sortByBase l))
        = true
  · rw [if_pos hc] at h
    simp only [Except.ok.injEq] at h
    exact ⟨h.symm, hc⟩
  · rw [if_neg hc] at h
    exact absurd h (by simp)

theorem fromRanges_isOk_iff (l : List (Nat × Nat)) :
    (fromRanges l).isOk = true ↔
      (∀ p ∈ l, p.2 ≠ 0) ∧ l.Pairwise rangesDisjoint := by
  rw [← validator_iff]
  unfold fromRanges
  by_cases hc :
      (((sortByBase l).all fun p => decide (p.2 ≠ 0)) && chainOk (sortByBase l))
        = true
  · rw [if_pos hc]
    exact ⟨fun _ => hc, fun _ => rfl⟩
  · rw [if_neg hc]
    constructor
    · intro h; exact Bool.noConfusion h
    · intro h; exact absurd h hc

theorem fromRanges_not_ok {l : List (Nat × Nat)}
    (h : (fromRanges l).isOk = false) :
    fromRanges l = .error .constructionError := by
  unfold fromRanges at *
  by_cases hc :
      (((sortByBase l).all fun p => decide (p.2 ≠ 0)) && chainOk (sortByBase l))
        = true
  · rw [if_pos hc] at h
    exact Bool.noConfusion h
  · rw [if_neg hc]

/-! ## Little-endian round-trip lemmas -/

theorem mod_mul_256 (n t : Nat) : n % (256 * t) = n % 256 + 256 * (n / 256 % t) := by
  rcases Nat.eq_zero_or_pos t with ht | ht
  · subst ht
    rw [Nat.mul_zero, Nat.mod_zero, Nat.mod_zero]
    omega
  · have hd : n = 256 * t * (n / 256 / t) + (256 * (n / 256 % t) + n % 256) :=
      calc n = 256 * (n / 256) + n % 256 := (Nat.div_add_mod n 256).symm
        _ = 256 * (t * (n / 256 / t) + n / 256 % t) + n % 256 := by
              rw [Nat.div_add_mod, Nat.div_add_mod]
              omega
        _ = 256 * t * (n / 256 / t) + (256 * (n / 256 % t) + n % 256) := by ring
    conv_lhs => rw [hd]
    rw [Nat.mul_add_mod]
    have hx : n / 256 % t < t := Nat.mod_lt _ ht
    have hy : n % 256 < 256 := Nat.mod_lt _ (by omega)
    have hlt : 256 * (n / 256 % t) + n % 256 < 256 * t := by omega
    rw [Nat.mod_eq_of_lt hlt, Nat.add_comm]

theorem natToLe_length : ∀ k n : Nat, (natToLe k n).length = k
  | 0, _ => rfl
  | k + 1, n => by
    show (natToLe k (n / 256)).length + 1 = k + 1
    rw [natToLe_length k]

theorem leToNat_natToLe : ∀ k n : Nat, leToNat (natToLe k n) = n % 256 ^ k
  | 0, n => by simp [natToLe, leToNat, Nat.mod_one]
  | k + 1, n => by
    show n % 256 + 256 * leToNat (natToLe k (n / 256)) = n % 256 ^ (k + 1)
    rw [leToNat_natToLe k (n / 256), Nat.pow_succ,
      show (256 : Nat) ^ k * 256 = 256 * 256 ^ k from by ring]
    exact (mod_mul_256 n (256 ^ k)).symm

theorem leChunks_flatten : ∀ es : List Nat,
    leChunks 8 es.length ((es.map (natToLe 8)).flatten) = es.map (· % 256 ^ 8)
  | [] => rfl
  | e :: es => by
    rw [List.map_cons, List.flatten_cons, List.length_cons, List.map_cons]
    show leToNat ((natToLe 8 e ++ (es.map (natToLe 8)).flatten).take 8) ::
        leChunks 8 es.length ((natToLe 8 e ++ (es.map (natToLe 8)).flatten).drop 8)
      = e % 256 ^ 8 :: es.map (· % 256 ^ 8)
    have hlen : (natToLe 8 e).length = 8 := natToLe_length 8 e
    rw [List.take_left' hlen, List.drop_left' hlen, leToNat_natToLe,
      leChunks_flatten es]

theorem SmallDummy_fromBytes_toBytes {v : SmallDummy}
    (ha : v.a < 2 ^ 32) (hb : v.b < 2 ^ 32) :
    SmallDummy.fromBytes v.toBytes = v := by
  cases v with
  | mk a b =>
    simp only at ha hb
    unfold SmallDummy.fromBytes SmallDummy.toBytes
    simp only
    have h4 : (natToLe 4 a).length = 4 := natToLe_length 4 a
    rw [List.take_left' h4, List.drop_left' h4, leToNat_natToLe,
      List.take_of_length_le (Nat.le_of_eq (natToLe_length 4 b)), leToNat_natToLe]
    have h32 : (256 : Nat) ^ 4 = 2 ^ 32 := by norm_num
    rw [h32, Nat.mod_eq_of_lt ha, Nat.mod_eq_of_lt hb]

theorem BigDummy_fromBytes_toBytes {v : BigDummy}
    (hlen : v.elements.length = 12) (hbound : ∀ e ∈ v.elements, e < 2 ^ 64) :
    BigDummy.fromBytes v.toBytes = v := by
  cases v with
  | mk es =>
    simp only at hlen hbound
    unfold BigDummy.fromBytes BigDummy.toBytes
    simp only [BigDummy.mk.injEq]
    rw [← hlen, leChunks_flatten]
    conv_rhs => rw [← List.map_id es]
    apply List.map_congr_left
    intro e he
    have h64 : (256 : Nat) ^ 8 = 2 ^ 64 := by norm_num
    show e % 256 ^ 8 = e
    rw [h64, Nat.mod_eq_of_lt (hbound e he)]

theorem SmallDummy_toBytes_length (v : SmallDummy) : v.toBytes.length = 8 := by
  unfold SmallDummy.toBytes
  rw [List.length_append, natToLe_length, natToLe_length]

theorem BigDummy_toBytes_length {v : BigDummy} (hlen : v.elements.length = 12) :
    v.toBytes.length = 96 := by
  unfold BigDummy.toBytes
  rw [List.length_flatten, List.map_map]
  have h : v.elements.map (List.length ∘ natToLe 8) = v.elements.map fun _ => 8 :=
    List.map_congr_left fun e _ => natToLe_length 8 e
  rw [h, List.map_const', List.sum_replicate, hlen, smul_eq_mul]

theorem fromRanges_ok_wf {l : List (Nat × Nat)} {m : GuestMem}
    (h : fromRanges l = .ok m) : wf m := by
  obtain ⟨hm, hc⟩ := fromRanges_ok_inv h
  rw [Bool.and_eq_true, List.all_eq_true, chainOk_iff] at hc
  subst hm
  constructor
  · rw [List.chain'_map]
    exact hc.2
  · intro r hr
    rw [List.mem_map] at hr
    obtain ⟨p, hp, hpr⟩ := hr
    have hnz := hc.1 p hp
    simp only [decide_eq_true_eq] at hnz
    subst hpr
    show 0 < p.2
    omega

theorem read_exact_from_ok_regions {m m' : GuestMem} {a len : Nat}
    {stream : List Nat} (h : read_exact_from m a stream len = .ok m') :
    m'.regions = m.regions := by
  unfold read_exact_from at h
  cases ht : tryAccess m a len with
  | error e => rw [ht] at h; exact absurd h (by simp)
  | ok r =>
      rw [ht] at h
      simp only at h
      by_cases hs : stream.length < len
      · rw [if_pos hs] at h; exact absurd h (by simp)
      · rw [if_neg hs] at h
        injection h with h
        rw [← h]

theorem twoRegionMem_wf : wf twoRegionMem := by
  unfold wf twoRegionMem
  constructor
  · simp only [List.chain'_cons, List.chain'_singleton, and_true]
    show regionBelow ⟨0, 0x80000000⟩ ⟨0x80000000, 0x80000000⟩
    unfold regionBelow
    norm_num
  · intro r hr
    simp only [List.mem_cons, List.mem_singleton, List.not_mem_nil, or_false] at hr
    rcases hr with h | h <;> subst h <;> norm_num

/-! ## Claims -/

/-- C1: for every well-formed region set and every access `(a, len)`, address
resolution finds the unique region `r` with `r.base ≤ a` and
`a + len ≤ r.base + r.size` and the byte operations delegate to its bytes; if
no region covers the full range (no region contains `a`, or the access would
cross into a second region or run past the region's end), the operation fails
with an out-of-bounds error — a span covering two regions is never serviced by
stitching them together. -/
theorem resolution_unique_or_oob (m : GuestMem) (hwf : wf m)
    (a len : Nat) (hlen : 1 ≤ len) :
    (∀ r, tryAccess m a len = .ok r →
      r ∈ m.regions ∧ r.base ≤ a ∧ a + len ≤ r.base + r.size ∧
        (∀ r' ∈ m.regions, r'.base ≤ a → a + len ≤ r'.base + r'.size → r' = r) ∧
        readBytes m a len = .ok ((List.range len).map fun i => m.bytes (a + i))) ∧
    ((∀ r ∈ m.regions, ¬(r.base ≤ a ∧ a + len ≤ r.base + r.size)) →
      readBytes m a len = .error .outOfBounds ∧
        ∀ data : List Nat, data.length = len →
          writeBytes m a data = .error .outOfBounds) ∧
    (∀ e, tryAccess m a len = .error e →
      e = .outOfBounds ∧
        ∀ r ∈ m.regions, ¬(r.base ≤ a ∧ a + len ≤ r.base + r.size)) := by
  refine ⟨?_, ?_, ?_⟩
  · intro r h
    obtain ⟨hmem, hb, hlt, he⟩ := tryAccess_ok_inv h
    refine ⟨hmem, hb, he, ?_, ?_⟩
    · intro r' hr' hb' he'
      exact contains_unique hwf hr' hmem
        (covers_contains hlen hb' he') (covers_contains hlen hb he)
    · unfold readBytes
      rw [h]
      rfl
  · intro hnone
    have ht := tryAccess_error_of_not_covers hnone
    constructor
    · unfold readBytes
      rw [ht]
      rfl
    · intro data hd
      unfold writeBytes
      rw [hd, ht]
      rfl
  · intro e he
    refine ⟨tryAccess_error_inv he, ?_⟩
    rintro r hr ⟨hb, hcov⟩
    rw [tryAccess_ok_of_covers hwf hlen hr hb hcov] at he
    exact absurd he (by simp)

/-- Witness for C1, at the two-region layout and the in-bounds access starting
at the second region's base. -/
theorem resolution_unique_or_oob_witness :
    readBytes twoRegionMem 0x80000000 0x200
      = .ok ((List.range 0x200).map fun i => twoRegionMem.bytes (0x80000000 + i)) :=
  ((resolution_unique_or_oob twoRegionMem twoRegionMem_wf 0x80000000 0x200
    (by decide)).1 ⟨0x80000000, 0x80000000⟩ rfl).2.2.2.2

/-- C2: for the region set built from `[0, 0x8000_0000)` and
`[0x8000_0000, 0x1_0000_0000)`, a read of length `0x200` starting `0x100`
before the boundary fails with OutOfBounds, while a read of the same length
starting exactly at the boundary succeeds. -/
theorem boundary_rejection :
    fromRanges [(0, 0x80000000), (0x80000000, 0x80000000)] = .ok twoRegionMem ∧
      readBytes twoRegionMem (0x80000000 - 0x100) 0x200 = .error .outOfBounds ∧
      (readBytes twoRegionMem 0x80000000 0x200).isOk = true :=
  ⟨rfl, rfl, rfl⟩

/-- Counterexample to C3 as stated: the two touching (adjacent, non-overlapping)
ranges of the spec's own boundary-rejection layout are accepted by
construction, so construction does not fail whenever two entries touch. -/
theorem construction_accepts_touching :
    (fromRanges [(0, 0x80000000), (0x80000000, 0x80000000)]).isOk = true ∧
      (0 : Nat) + 0x80000000 = 0x80000000 :=
  ⟨rfl, rfl⟩

/-- C3 (amended): construction fails with a construction error whenever the
input list contains two entries whose address ranges overlap (including
duplicates), or contains a zero-length entry; it succeeds exactly when no such
pair and no such entry exists.  Touching (adjacent) ranges are accepted. -/
theorem construction_rejects_overlap_and_zero (l : List (Nat × Nat)) :
    ((fromRanges l).isOk = true ↔
      (∀ p ∈ l, p.2 ≠ 0) ∧ l.Pairwise rangesDisjoint) ∧
    ((fromRanges l).isOk = false → fromRanges l = .error .constructionError) :=
  ⟨fromRanges_isOk_iff l, fromRanges_not_ok⟩

/-- Witness for C3's amended statement, at a zero-length entry. -/
theorem construction_rejects_overlap_and_zero_witness :
    fromRanges [((4 : Nat), (0 : Nat))] = .error .constructionError :=
  (construction_rejects_overlap_and_zero [(4, 0)]).2 rfl

/-- C4: every region set returned by construction has pairwise disjoint
region address ranges; the region list is unchanged by the mutating
operations (no region added, removed or resized); and any input list
containing an overlapping pair always fails construction. -/
theorem regions_pairwise_disjoint :
    (∀ (l : List (Nat × Nat)) (m : GuestMem), fromRanges l = .ok m →
      (m.regions.Pairwise fun r1 r2 => ∀ x : Nat,
        ¬(r1.base ≤ x ∧ x < r1.base + r1.size ∧
          r2.base ≤ x ∧ x < r2.base + r2.size)) ∧
      (∀ (a : Nat) (data : List Nat) (m' : GuestMem),
        writeBytes m a data = .ok m' → m'.regions = m.regions) ∧
      (∀ (a : Nat) (stream : List Nat) (len : Nat) (m' : GuestMem),
        read_exact_from m a stream len = .ok m' → m'.regions = m.regions)) ∧
    (∀ l : List (Nat × Nat), ¬l.Pairwise rangesDisjoint →
      (fromRanges l).isOk = false) := by
  constructor
  · intro l m h
    refine ⟨?_, ?_, ?_⟩
    · have hpw := wf_pairwise (fromRanges_ok_wf h)
      apply hpw.imp
      intro r1 r2 hb x hx
      unfold regionBelow at hb
      omega
    · intro a data m' h'
      exact (writeBytes_ok_elim h').2 ▸ rfl
    · intro a stream len m' h'
      exact read_exact_from_ok_regions h'
  · intro l hnp
    cases hok : (fromRanges l).isOk with
    | false => rfl
    | true => exact absurd ((fromRanges_isOk_iff l).mp hok).2 hnp

/-- Witness for C4, at the two-region layout and an overlapping pair. -/
theorem regions_pairwise_disjoint_witness :
    (twoRegionMem.regions.Pairwise fun r1 r2 => ∀ x : Nat,
      ¬(r1.base ≤ x ∧ x < r1.base + r1.size ∧
        r2.base ≤ x ∧ x < r2.base + r2.size)) ∧
    (fromRanges [((0 : Nat), (2 : Nat)), ((1 : Nat), (2 : Nat))]).isOk = false :=
  ⟨(regions_pairwise_disjoint.1 [(0, 0x80000000), (0x80000000, 0x80000000)]
      twoRegionMem rfl).1,
    regions_pairwise_disjoint.2 [(0, 2), (1, 2)] (by
      intro hp
      have := (List.pairwise_cons.mp hp).1 (1, 2) (by simp)
      unfold rangesDisjoint at this
      omega)⟩

/-- C5: for every plain-data value of the 8-byte two-u32-field type or the
96-byte twelve-u64-element type, and every address `a` such that `a` plus the
type's size lies inside one region, `write_obj` followed by `read_obj` at the
same address with the same type returns exactly the value written. -/
theorem obj_write_read_roundtrip (m : GuestMem) (hwf : wf m) (r : MemRegion)
    (hr : r ∈ m.regions) (a : Nat)
    (v : SmallDummy) (hva : v.a < 2 ^ 32) (hvb : v.b < 2 ^ 32)
    (w : BigDummy) (hwlen : w.elements.length = 12)
    (hwel : ∀ e ∈ w.elements, e < 2 ^ 64) :
    (r.base ≤ a → a + 8 ≤ r.base + r.size →
      ∃ m', writeObjSmall m v a = .ok m' ∧ readObjSmall m' a = .ok v) ∧
    (r.base ≤ a → a + 96 ≤ r.base + r.size →
      ∃ m', writeObjBig m w a = .ok m' ∧ readObjBig m' a = .ok w) := by
  constructor
  · intro hb he
    have hlen : v.toBytes.length = 8 := SmallDummy_toBytes_length v
    have ht : tryAccess m a v.toBytes.length = .ok r := by
      rw [hlen]
      exact tryAccess_ok_of_covers hwf (by omega) hr hb he
    have hwrite : writeObjSmall m v a
        = .ok { m with bytes := storeRange m.bytes a v.toBytes } := by
      unfold writeObjSmall writeBytes
      rw [ht]
      rfl
    refine ⟨_, hwrite, ?_⟩
    have hread := (readBytes_writeBytes hwrite).1
    rw [hlen] at hread
    unfold readObjSmall
    rw [hread]
    show Except.ok (SmallDummy.fromBytes v.toBytes) = Except.ok v
    rw [SmallDummy_fromBytes_toBytes hva hvb]
  · intro hb he
    have hlen : w.toBytes.length = 96 := BigDummy_toBytes_length hwlen
    have ht : tryAccess m a w.toBytes.length = .ok r := by
      rw [hlen]
      exact tryAccess_ok_of_covers hwf (by omega) hr hb he
    have hwrite : writeObjBig m w a
        = .ok { m with bytes := storeRange m.bytes a w.toBytes } := by
      unfold writeObjBig writeBytes
      rw [ht]
      rfl
    refine ⟨_, hwrite, ?_⟩
    have hread := (readBytes_writeBytes hwrite).1
    rw [hlen] at hread
    unfold readObjBig
    rw [hread]
    show Except.ok (BigDummy.fromBytes w.toBytes) = Except.ok w
    rw [BigDummy_fromBytes_toBytes hwlen hwel]

/-- Witness for C5, at the two-region layout, address 16, and concrete
values of both payload types. -/
theorem obj_write_read_roundtrip_witness :
    (∃ m', writeObjSmall twoRegionMem ⟨0x11112222, 0x33334444⟩ 16 = .ok m' ∧
      readObjSmall m' 16 = .ok ⟨0x11112222, 0x33334444⟩) ∧
    (∃ m', writeObjBig twoRegionMem ⟨List.replicate 12 0x1111222233334444⟩ 16
        = .ok m' ∧
      readObjBig m' 16 = .ok ⟨List.replicate 12 0x1111222233334444⟩) := by
  have h := obj_write_read_roundtrip twoRegionMem twoRegionMem_wf
    ⟨0, 0x80000000⟩ (by decide) 16
    ⟨0x11112222, 0x33334444⟩ (by decide) (by decide)
    ⟨List.replicate 12 0x1111222233334444⟩ (by decide)
    (by intro e he; simp [List.eq_of_mem_replicate he])
  exact ⟨h.1 (by decide) (by decide), h.2 (by decide) (by decide)⟩

/-! ## Mapping-trace lemmas (for construction rollback) -/

theorem liveAfter_append (evs l : List MapEvent) :
    liveAfter (evs ++ l) = l.foldl stepLive (liveAfter evs) :=
  List.foldl_append stepLive [] evs l

theorem rollback_clears : ∀ i : Nat,
    ((List.range i).reverse.map MapEvent.unmapped).foldl stepLive (List.range i)
      = []
  | 0 => rfl
  | i + 1 => by
    rw [List.range_succ, List.reverse_append, List.reverse_singleton,
      List.singleton_append, List.map_cons, List.foldl_cons]
    have hstep : stepLive (List.range i ++ [i]) (MapEvent.unmapped i)
        = List.range i := by
      show (List.range i ++ [i]).erase i = List.range i
      rw [List.erase_append_right _ (by simp), List.erase_cons_head,
        List.append_nil]
    rw [← List.range_succ, List.range_succ, hstep]
    exact rollback_clears i

theorem mapLoop_spec (oracle : Nat → Bool) : ∀ (rest : List (Nat × Nat)) (i : Nat)
    (evs : List MapEvent), liveAfter evs = List.range i →
    (∀ u evs', mapLoop oracle rest i evs = (.ok u, evs') →
      liveAfter evs' = List.range (i + rest.length)) ∧
    (∀ e evs', mapLoop oracle rest i evs = (.error e, evs') → liveAfter evs' = [])
  | [], i, evs, hlive => by
    constructor
    · intro u evs' h
      unfold mapLoop at h
      injection h with h1 h2
      subst h2
      simpa using hlive
    · intro e evs' h
      unfold mapLoop at h
      injection h with h1 h2
      exact absurd h1 (by simp)
  | p :: rest, i, evs, hlive => by
    by_cases ho : oracle i = true
    · constructor
      · intro u evs' h
        unfold mapLoop at h
        rw [if_pos ho] at h
        injection h with h1 h2
        exact absurd h1 (by simp)
      · intro e evs' h
        unfold mapLoop at h
        rw [if_pos ho] at h
        injection h with h1 h2
        subst h2
        rw [liveAfter_append, hlive]
        exact rollback_clears i
    · have hlive' : liveAfter (evs ++ [MapEvent.mapped i]) = List.range (i + 1) := by
        rw [liveAfter_append, hlive]
        show List.range i ++ [i] = List.range (i + 1)
        rw [List.range_succ]
      have ih := mapLoop_spec oracle rest (i + 1) (evs ++ [MapEvent.mapped i]) hlive'
      constructor
      · intro u evs' h
        unfold mapLoop at h
        rw [if_neg ho] at h
        have := ih.1 u evs' h
        rw [this, List.length_cons]
        congr 1
        omega
      · intro e evs' h
        unfold mapLoop at h
        rw [if_neg ho] at h
        exact ih.2 e evs' h

/-! ## Interleaving lemmas -/

theorem applySteps_outside (x : Nat) : ∀ (steps : List (Nat × Nat)) (bytes : Nat → Nat),
    (∀ s ∈ steps, s.1 ≠ x) → applySteps bytes steps x = bytes x
  | [], _, _ => rfl
  | (addr, b) :: rest, bytes, h => by
    show applySteps (fun y => if y = addr then b else bytes y) rest x
      = bytes x
    rw [applySteps_outside x rest _ fun s hs => h s (List.mem_cons_of_mem _ hs)]
    exact if_neg fun hx => h (addr, b) (List.mem_cons_self _ _) hx.symm

theorem stepsOf_mem {w : WriteAccess} {s : Nat × Nat} (h : s ∈ stepsOf w) :
    inRange w s.1 := by
  unfold stepsOf at h
  rw [List.mem_map] at h
  obtain ⟨i, hi, rfl⟩ := h
  rw [List.mem_range] at hi
  exact ⟨Nat.le_add_right _ _, by omega⟩

theorem interleaving_mem {xs ys zs : List (Nat × Nat)}
    (h : Interleaving xs ys zs) : ∀ s ∈ zs, s ∈ xs ∨ s ∈ ys := by
  induction h with
  | nil => intro s hs; exact absurd hs (List.not_mem_nil _)
  | left _ ih =>
      intro s hs
      rcases List.mem_cons.mp hs with h | h
      · exact Or.inl (h ▸ List.mem_cons_self _ _)
      · rcases ih s h with h' | h'
        · exact Or.inl (List.mem_cons_of_mem _ h')
        · exact Or.inr h'
  | right _ ih =>
      intro s hs
      rcases List.mem_cons.mp hs with h | h
      · exact Or.inr (h ▸ List.mem_cons_self _ _)
      · rcases ih s h with h' | h'
        · exact Or.inl h'
        · exact Or.inr (List.mem_cons_of_mem _ h')

/-- C6: construction is all-or-nothing.  For every mapping-failure oracle and
every input list, construction either returns a region set containing every
listed region (all of them mapped, none unmapped), or returns an error with no
mapping left live — every mapping created during the failed attempt was
unmapped before the error propagated, so no partially-constructed region set
is ever observable. -/
theorem construction_all_or_nothing (oracle : Nat → Bool) (l : List (Nat × Nat)) :
    (∀ m evs, buildRegions oracle l = (.ok m, evs) →
      m.regions = (sortByBase l).map (fun p => ⟨p.1, p.2⟩) ∧
        liveAfter evs = List.range l.length) ∧
    (∀ e evs, buildRegions oracle l = (.error e, evs) → liveAfter evs = []) := by
  have hspec := mapLoop_spec oracle (sortByBase l) 0 [] rfl
  unfold buildRegions
  by_cases hc :
      (((sortByBase l).all fun p => decide (p.2 ≠ 0)) && chainOk (sortByBase l))
        = true
  · rw [if_pos hc]
    cases hml : mapLoop oracle (sortByBase l) 0 [] with
    | mk res evs0 =>
      cases res with
      | ok u =>
        constructor
        · intro m evs h
          simp only [hml] at h
          injection h with h1 h2
          subst h2
          injection h1 with h1
          subst h1
          refine ⟨rfl, ?_⟩
          have := hspec.1 u evs0 hml
          rw [this, Nat.zero_add, (sortByBase_perm l).length_eq]
        · intro e evs h
          simp only [hml] at h
          injection h with h1 h2
          exact absurd h1 (by simp)
      | error e0 =>
        constructor
        · intro m evs h
          simp only [hml] at h
          injection h with h1 h2
          exact absurd h1 (by simp)
        · intro e evs h
          simp only [hml] at h
          injection h with h1 h2
          subst h2
          exact hspec.2 e0 evs0 hml
  · rw [if_neg hc]
    constructor
    · intro m evs h
      injection h with h1 h2
      exact absurd h1 (by simp)
    · intro e evs h
      injection h with h1 h2
      subst h2
      rfl

/-- Witness for C6: a construction attempt whose second mapping syscall fails
ends with zero live mappings. -/
theorem construction_all_or_nothing_witness :
    liveAfter [MapEvent.mapped 0, MapEvent.unmapped 0] = [] :=
  (construction_all_or_nothing (fun i => decide (i = 1))
    [(0, 1), (2, 1), (4, 1)]).2 .osError
    [MapEvent.mapped 0, MapEvent.unmapped 0] rfl

/-- C7: the exact-length streaming operations fail atomically with a ShortIo
error whenever the stream cannot supply or accept the full requested length,
and report success exactly when the full length was transferred; on success
exactly `len` bytes are moved and no byte outside the range is touched. -/
theorem exact_streaming_atomic (m : GuestMem) (a len : Nat) (r : MemRegion)
    (ht : tryAccess m a len = .ok r) (stream : List Nat) (cap : Nat) :
    (stream.length < len → read_exact_from m a stream len = .error .shortIo) ∧
    (len ≤ stream.length →
      ∃ m', read_exact_from m a stream len = .ok m' ∧
        ((List.range len).map fun i => m'.bytes (a + i)) = stream.take len ∧
        ∀ x, ¬(a ≤ x ∧ x < a + len) → m'.bytes x = m.bytes x) ∧
    (cap < len → write_all_to m a cap len = .error .shortIo) ∧
    (len ≤ cap →
      write_all_to m a cap len
        = .ok ((List.range len).map fun i => m.bytes (a + i))) := by
  refine ⟨?_, ?_, ?_, ?_⟩
  · intro hs
    unfold read_exact_from
    rw [ht]
    simp only
    rw [if_pos hs]
  · intro hs
    have htake : (stream.take len).length = len := by
      rw [List.length_take]
      omega
    refine ⟨{ m with bytes := storeRange m.bytes a (stream.take len) }, ?_, ?_, ?_⟩
    · unfold read_exact_from
      rw [ht]
      simp only
      rw [if_neg (by omega)]
    · have := storeRange_read m.bytes a (stream.take len)
      rw [htake] at this
      exact this
    · intro x hx
      apply storeRange_outside
      rw [htake]
      exact hx
  · intro hcap
    unfold write_all_to
    rw [ht]
    simp only
    rw [if_pos hcap]
  · intro hcap
    unfold write_all_to
    rw [ht]
    simp only
    rw [if_neg (by omega)]

/-- Witness for C7: a 2-byte exact read from a 1-byte stream fails with
ShortIo. -/
theorem exact_streaming_atomic_witness :
    read_exact_from twoRegionMem 0 [7] 2 = .error .shortIo :=
  (exact_streaming_atomic twoRegionMem 0 2 ⟨0, 0x80000000⟩ rfl [7] 5).1
    (by decide)

/-- C8: checked address arithmetic returns the exact mathematical sum or
difference whenever it is representable in 64 bits and signals overflow by
returning none otherwise; it never wraps modulo 2^64 and never produces any
other value. -/
theorem checked_arith_exact (a off : Nat) (ha : a < U64_LIMIT)
    (hoff : off < U64_LIMIT) :
    (∀ s, checked_add a off = some s → s = a + off ∧ s < U64_LIMIT) ∧
    (checked_add a off = none ↔ U64_LIMIT ≤ a + off) ∧
    (∀ d, checked_sub a off = some d →
      (d : Int) = (a : Int) - (off : Int) ∧ d < U64_LIMIT) ∧
    (checked_sub a off = none ↔ (a : Int) - (off : Int) < 0) := by
  unfold checked_add checked_sub
  refine ⟨?_, ?_, ?_, ?_⟩
  · intro s h
    by_cases hlt : a + off < U64_LIMIT
    · rw [if_pos hlt] at h
      injection h with h
      omega
    · rw [if_neg hlt] at h
      exact absurd h (by simp)
  · by_cases hlt : a + off < U64_LIMIT
    · rw [if_pos hlt]
      constructor
      · intro h; exact absurd h (by simp)
      · intro h; omega
    · rw [if_neg hlt]
      constructor
      · intro _; omega
      · intro _; rfl
  · intro d h
    by_cases hle : off ≤ a
    · rw [if_pos hle] at h
      injection h with h
      omega
    · rw [if_neg hle] at h
      exact absurd h (by simp)
  · by_cases hle : off ≤ a
    · rw [if_pos hle]
      constructor
      · intro h; exact absurd h (by simp)
      · intro h; omega
    · rw [if_neg hle]
      constructor
      · intro _; omega
      · intro _; rfl

/-- Witness for C8, at `5 + 3` within range. -/
theorem checked_arith_exact_witness : (8 : Nat) = 5 + 3 ∧ (8 : Nat) < U64_LIMIT :=
  (checked_arith_exact 5 3 (by decide) (by decide)).1 8 rfl

/-- C9: two write accesses on byte ranges lying inside the same region, with
disjoint ranges, both resolve successfully (neither fails), and under every
interleaving of their single-byte stores, no byte outside their own ranges is
modified. -/
theorem concurrent_disjoint_accesses (m : GuestMem) (hwf : wf m)
    (r : MemRegion) (hr : r ∈ m.regions) (w1 w2 : WriteAccess)
    (h1ne : w1.data ≠ []) (h2ne : w2.data ≠ [])
    (h1b : r.base ≤ w1.start) (h1e : w1.start + w1.data.length ≤ r.base + r.size)
    (h2b : r.base ≤ w2.start) (h2e : w2.start + w2.data.length ≤ r.base + r.size)
    (hdisj : w1.start + w1.data.length ≤ w2.start ∨
      w2.start + w2.data.length ≤ w1.start) :
    (tryAccess m w1.start w1.data.length = .ok r ∧
      tryAccess m w2.start w2.data.length = .ok r) ∧
    ∀ zs, Interleaving (stepsOf w1) (stepsOf w2) zs →
      ∀ x, ¬inRange w1 x → ¬inRange w2 x → applySteps m.bytes zs x = m.bytes x := by
  have hd1 : 1 ≤ w1.data.length := List.length_pos.mpr h1ne
  have hd2 : 1 ≤ w2.data.length := List.length_pos.mpr h2ne
  refine ⟨⟨tryAccess_ok_of_covers hwf hd1 hr h1b h1e,
      tryAccess_ok_of_covers hwf hd2 hr h2b h2e⟩, ?_⟩
  intro zs hz x hx1 hx2
  apply applySteps_outside
  intro s hs
  rcases interleaving_mem hz s hs with h | h
  · intro hsx
    exact hx1 (hsx ▸ stepsOf_mem h)
  · intro hsx
    exact hx2 (hsx ▸ stepsOf_mem h)

/-- Witness for C9: single-byte writes at addresses 0 and 1 of the two-region
layout, interleaved first-then-second, leave address 5 untouched. -/
theorem concurrent_disjoint_accesses_witness :
    applySteps twoRegionMem.bytes [(0, 1), (1, 2)] 5 = twoRegionMem.bytes 5 :=
  (concurrent_disjoint_accesses twoRegionMem twoRegionMem_wf
    ⟨0, 0x80000000⟩ (by decide) ⟨0, [1]⟩ ⟨1, [2]⟩
    (by decide) (by decide) (by decide) (by decide) (by decide) (by decide)
    (Or.inl (by decide))).2
    [(0, 1), (1, 2)] (.left (.right .nil)) 5 (by decide) (by decide)

theorem benchMem_fromRanges : fromRanges Bench.benchRanges = .ok Bench.benchMem :=
  rfl

theorem benchMem_wf : wf Bench.benchMem :=
  fromRanges_ok_wf benchMem_fromRanges

/-- C10: in the benchmark's eight-region layout, `InRegion(idx).make_offset(L)`
equals `idx * 0x8000_0000` (the base of region `idx`, so an access of length
`L ≤ 0x8000_0000` starting there resolves entirely within region `idx`), and
`CrossRegion(idx).make_offset(L)` equals `idx * 0x8000_0000 - L / 2`, so for
every even `L` with `2 ≤ L ≤ 0x1_0000_0000` an access of length `L` starting
there straddles the boundary between regions `idx - 1` and `idx`. -/
theorem make_offset_layout (idx L : Nat) :
    (idx < Bench.REGIONS_COUNT →
      (Bench.AccessKind.inRegion idx).make_offset L = idx * Bench.REGION_SIZE) ∧
    (idx < Bench.REGIONS_COUNT → 1 ≤ L → L ≤ Bench.REGION_SIZE →
      tryAccess Bench.benchMem ((Bench.AccessKind.inRegion idx).make_offset L) L
        = .ok ⟨idx * Bench.REGION_SIZE, Bench.REGION_SIZE⟩) ∧
    (1 ≤ idx → idx < Bench.REGIONS_COUNT → L ≤ 0x100000000 →
      (Bench.AccessKind.crossRegion idx).make_offset L
        = idx * Bench.REGION_SIZE - L / 2) ∧
    (1 ≤ idx → idx < Bench.REGIONS_COUNT → 2 ≤ L → L % 2 = 0 →
        L ≤ 0x100000000 →
      (idx - 1) * Bench.REGION_SIZE
          ≤ (Bench.AccessKind.crossRegion idx).make_offset L ∧
        (Bench.AccessKind.crossRegion idx).make_offset L
          < idx * Bench.REGION_SIZE ∧
        idx * Bench.REGION_SIZE
          < (Bench.AccessKind.crossRegion idx).make_offset L + L ∧
        (Bench.AccessKind.crossRegion idx).make_offset L + L
          ≤ (idx + 1) * Bench.REGION_SIZE) := by
  have hU : U64_LIMIT = 18446744073709551616 := by norm_num [U64_LIMIT]
  have hin : ∀ h : idx < Bench.REGIONS_COUNT,
      (Bench.AccessKind.inRegion idx).make_offset L = idx * Bench.REGION_SIZE := by
    intro h
    show Bench.REGION_SIZE * idx % U64_LIMIT = idx * Bench.REGION_SIZE
    unfold Bench.REGION_SIZE
    unfold Bench.REGIONS_COUNT at h
    rw [hU]
    omega
  have hcross : ∀ _ : 1 ≤ idx, ∀ _ : idx < Bench.REGIONS_COUNT,
      ∀ _ : L ≤ 0x100000000,
      (Bench.AccessKind.crossRegion idx).make_offset L
        = idx * Bench.REGION_SIZE - L / 2 := by
    intro h1 h2 h3
    show (Bench.REGION_SIZE * idx % U64_LIMIT + (U64_LIMIT - L / 2 % U64_LIMIT))
        % U64_LIMIT = idx * Bench.REGION_SIZE - L / 2
    unfold Bench.REGION_SIZE
    unfold Bench.REGIONS_COUNT at h2
    rw [hU]
    omega
  refine ⟨hin, ?_, hcross, ?_⟩
  · intro hidx hL1 hLR
    rw [hin hidx]
    apply tryAccess_ok_of_covers benchMem_wf hL1
    · exact List.mem_map.mpr ⟨idx, List.mem_range.mpr hidx, rfl⟩
    · exact Nat.le_refl _
    · show idx * Bench.REGION_SIZE + L
        ≤ idx * Bench.REGION_SIZE + Bench.REGION_SIZE
      unfold Bench.REGION_SIZE at *
      omega
  · intro h1 h2 hL2 hLe hLb
    rw [hcross h1 h2 hLb]
    unfold Bench.REGION_SIZE
    unfold Bench.REGIONS_COUNT at h2
    omega

/-- Witness for C10, at the benchmark's `CrossRegion(1)` access of the default
access size `0x200`. -/
theorem make_offset_layout_witness :
    (Bench.AccessKind.crossRegion 1).make_offset 0x200
        = 1 * Bench.REGION_SIZE - 0x200 / 2 ∧
      tryAccess Bench.benchMem ((Bench.AccessKind.inRegion 1).make_offset 0x200)
          0x200
        = .ok ⟨1 * Bench.REGION_SIZE, Bench.REGION_SIZE⟩ :=
  ⟨(make_offset_layout 1 0x200).2.2.1 (by decide) (by decide) (by decide),
    (make_offset_layout 1 0x200).2.1 (by decide) (by decide) (by decide)⟩

end VmMem
